import Mathlib

/-!
Verification development for the NURBS / Hermite curve editor.

The definitions below are a shallow embedding of the curve-evaluation code:

* `basisFunction`, `generateKnots`, `evaluateNURBS` embed
  `NURBSEditor::basisFunction`, `NURBSEditor::generateKnots` and
  `NURBSEditor::evaluateNURBS` (nurbseditor.cpp), with `double` replaced by
  exact rationals and `QVector<double>` by `List ℚ`.  The imperative loops of
  `generateKnots` become `List.foldl` over the very index lists the C++ `for`
  loops traverse, so the overwrite order of the three assignment loops is
  preserved.
* `hermiteInterp`, `autoTangent`, `sampleHermite` embed the mathematics of
  `HermiteEditor::drawHermiteCurve` (hermiteeditor.cpp): the per-segment
  Hermite blend, automatic tangent estimation, and the sampling loops.
* `updateSlopeHandles` and the weight-mutating key handlers are embedded over
  `ℝ` (they involve `qSqrt`/`qAtan2`), and `WeightsReach` is the transition
  system generated by every weight-touching operation of `NURBSEditor`.
-/

/-- Planar point with exact rational coordinates; embeds `QPointF`.
`QPointF()` default-constructs to the origin. -/
structure Pt where
  x : ℚ
  y : ℚ
deriving DecidableEq, Repr

instance : Inhabited Pt := ⟨⟨0, 0⟩⟩

instance : Add Pt := ⟨fun a b => ⟨a.x + b.x, a.y + b.y⟩⟩

instance : Sub Pt := ⟨fun a b => ⟨a.x - b.x, a.y - b.y⟩⟩

instance : SMul ℚ Pt := ⟨fun c a => ⟨c * a.x, c * a.y⟩⟩

/-- Qt's fuzz threshold: `qFuzzyIsNull(d)` is `qAbs(d) <= 0.000000000001`. -/
def fuzzEps : ℚ := 1 / 1000000000000

/-- Embeds `qFuzzyIsNull` on `double`: true when the value is within
`0.000000000001` of zero. -/
def qFuzzyIsNull (d : ℚ) : Prop := |d| ≤ fuzzEps

instance (d : ℚ) : Decidable (qFuzzyIsNull d) := by
  unfold qFuzzyIsNull
  infer_instance

/-- Embeds `NURBSEditor::basisFunction` (Cox–de Boor recursion with Qt's
fuzz guard on each denominator).  `knots[i]` becomes `knots.getD i 0`. -/
def basisFunction (p i : ℕ) (knots : List ℚ) (t : ℚ) : ℚ :=
  match p with
  | 0 => if knots.getD i 0 ≤ t ∧ t < knots.getD (i + 1) 0 then 1 else 0
  | q + 1 =>
    let denom1 := knots.getD (i + (q + 1)) 0 - knots.getD i 0
    let term1 :=
      if qFuzzyIsNull denom1 then 0
      else (t - knots.getD i 0) / denom1 * basisFunction q i knots t
    let denom2 := knots.getD (i + (q + 1) + 1) 0 - knots.getD (i + 1) 0
    let term2 :=
      if qFuzzyIsNull denom2 then 0
      else (knots.getD (i + (q + 1) + 1) 0 - t) / denom2 * basisFunction q (i + 1) knots t
    term1 + term2

/-- Index list of the first `generateKnots` loop: `for (i = 0; i <= degree; ++i)`. -/
def knotLoopZero (degree : ℕ) : List ℕ := List.range (degree + 1)

/-- Index list of the second `generateKnots` loop:
`for (i = m - degree; i <= m; ++i)` where `m - degree = pointCount`. -/
def knotLoopOne (pointCount degree : ℕ) : List ℕ :=
  (List.range (degree + 1)).map (fun j => pointCount + j)

/-- Index list of the third `generateKnots` loop:
`for (i = degree + 1; i < m - degree; ++i)`, i.e. `degree+1 ≤ i ≤ pointCount-1`. -/
def knotLoopInterior (pointCount degree : ℕ) : List ℕ :=
  (List.range (pointCount - 1 - degree)).map (fun j => degree + 1 + j)

/-- Value stored by the interior loop of `generateKnots`:
`static_cast<double>(i - degree) / (n - degree + 1)` with `n = pointCount - 1`
computed in (signed) integer arithmetic and divided exactly. -/
def interiorKnot (pointCount degree i : ℕ) : ℚ :=
  ((i : ℤ) - (degree : ℤ) : ℤ) / ((((pointCount : ℤ) - 1) - (degree : ℤ) + 1 : ℤ) : ℚ)

/-- Embeds `NURBSEditor::generateKnots`.  `n = pointCount - 1`,
`m = n + degree + 1 = pointCount + degree`; the `QVector<double>(m+1)` is
zero-initialised and then the three assignment loops run in program order. -/
def generateKnots (pointCount degree : ℕ) : List ℚ :=
  let m := pointCount + degree
  let init := List.replicate (m + 1) (0 : ℚ)
  let afterZero := (knotLoopZero degree).foldl (fun ks i => ks.set i 0) init
  let afterOne := (knotLoopOne pointCount degree).foldl (fun ks i => ks.set i 1) afterZero
  (knotLoopInterior pointCount degree).foldl
    (fun ks i => ks.set i (interiorKnot pointCount degree i)) afterOne

/-- Control point of the NURBS editor restricted to the data read by
`evaluateNURBS`: position and weight. -/
structure ControlPoint where
  position : Pt
  weight : ℚ
deriving DecidableEq, Repr

instance : Inhabited ControlPoint := ⟨⟨⟨0, 0⟩, 1⟩⟩

/-- Accumulated `x` of the evaluation loop of `evaluateNURBS`:
`x += position.x() * (basisFunction(degree, i, knots, t) * weight)`. -/
def nurbsNumX (cps : List ControlPoint) (degree : ℕ) (t : ℚ) : ℚ :=
  Finset.sum (Finset.range cps.length) (fun i =>
    (cps.getD i default).position.x *
      (basisFunction degree i (generateKnots cps.length degree) t *
        (cps.getD i default).weight))

/-- Accumulated `y` of the evaluation loop of `evaluateNURBS`. -/
def nurbsNumY (cps : List ControlPoint) (degree : ℕ) (t : ℚ) : ℚ :=
  Finset.sum (Finset.range cps.length) (fun i =>
    (cps.getD i default).position.y *
      (basisFunction degree i (generateKnots cps.length degree) t *
        (cps.getD i default).weight))

/-- Accumulated `denominator` of the evaluation loop of `evaluateNURBS`. -/
def nurbsDenom (cps : List ControlPoint) (degree : ℕ) (t : ℚ) : ℚ :=
  Finset.sum (Finset.range cps.length) (fun i =>
    basisFunction degree i (generateKnots cps.length degree) t *
      (cps.getD i default).weight)

/-- Embeds `NURBSEditor::evaluateNURBS`.  Fewer than two control points yield
the default-constructed `QPointF()`; `t ≤ 0` and `t ≥ 1` are clamped to the
first/last control point before any basis evaluation; otherwise the weighted
sums are formed (the `qBound(0.0, t, 1.0)` of the source is the identity in
this branch) and a zero denominator yields `QPointF()`. -/
def evaluateNURBS (cps : List ControlPoint) (degree : ℕ) (t : ℚ) : Pt :=
  if cps.length < 2 then ⟨0, 0⟩
  else if t ≤ 0 then (cps.headD default).position
  else if 1 ≤ t then (cps.getLast?.getD default).position
  else if nurbsDenom cps degree t ≠ 0 then
    ⟨nurbsNumX cps degree t / nurbsDenom cps degree t,
      nurbsNumY cps degree t / nurbsDenom cps degree t⟩
  else ⟨0, 0⟩

/-- Interpolation point of the Hermite editor: position, stored right tangent,
and whether the user set the tangent explicitly. -/
structure InterpPoint where
  position : Pt
  tangent : Pt
  hasTangent : Bool
deriving DecidableEq, Repr

instance : Inhabited InterpPoint := ⟨⟨⟨0, 0⟩, ⟨50, 0⟩, false⟩⟩

/-- Embeds the automatic tangent estimation loop of
`HermiteEditor::drawHermiteCurve`: one-sided differences at the two ends and
central differences in between, scaled by `0.5`, computed from the current
positions each time it is called. -/
def autoTangent (pts : List InterpPoint) (i : ℕ) : Pt :=
  if i = 0 then
    (0.5 : ℚ) • ((pts.getD (i + 1) default).position - (pts.getD i default).position)
  else if i = pts.length - 1 then
    (0.5 : ℚ) • ((pts.getD i default).position - (pts.getD (i - 1) default).position)
  else
    (0.5 : ℚ) • ((pts.getD (i + 1) default).position - (pts.getD (i - 1) default).position)

/-- Tangent actually used for point `i` by the segment loop:
the stored tangent when `hasTangent`, otherwise the automatic one. -/
def usedTangent (pts : List InterpPoint) (i : ℕ) : Pt :=
  if (pts.getD i default).hasTangent then (pts.getD i default).tangent
  else autoTangent pts i

/-- Hermite cubic blend of `HermiteEditor::drawHermiteCurve`:
`h00·p0 + h10·t0 + h01·p1 + h11·t1` with the four cubic Hermite basis
polynomials written exactly as in the source. -/
def hermiteInterp (p0 t0 p1 t1 : Pt) (t : ℚ) : Pt :=
  let h00 := 2 * t * t * t - 3 * t * t + 1
  let h10 := t * t * t - 2 * t * t + t
  let h01 := -2 * t * t * t + 3 * t * t
  let h11 := t * t * t - t * t
  h00 • p0 + h10 • t0 + h01 • p1 + h11 • t1

/-- Embeds the sampling of `HermiteEditor::drawHermiteCurve`: nothing for
fewer than two points, otherwise for every segment `i < pointCount - 1` the
parameters `t = j / resolution`, `j = 0 .. resolution`, are evaluated and all
resulting path points are concatenated in order. -/
def sampleHermite (pts : List InterpPoint) (res : ℕ) : List Pt :=
  if pts.length < 2 then []
  else
    (List.range (pts.length - 1)).flatMap (fun i =>
      (List.range (res + 1)).map (fun (j : ℕ) =>
        hermiteInterp (pts.getD i default).position (usedTangent pts i)
          (pts.getD (i + 1) default).position (usedTangent pts (i + 1))
          ((j : ℚ) / (res : ℚ))))

/-- Embeds the point-drag branch of `HermiteEditor::mouseMoveEvent`:
`selectedPoint->position = event->pos()`; tangent and `hasTangent` are
untouched. -/
def movePoint (pts : List InterpPoint) (k : ℕ) (q : Pt) : List InterpPoint :=
  pts.set k { pts.getD k default with position := q }

/-- Coefficient of `basisFunction p i` inside `basisFunction (p+1) i`
(zero when the denominator is fuzz-null). -/
def alphaCoef (p i : ℕ) (K : List ℚ) (t : ℚ) : ℚ :=
  if qFuzzyIsNull (K.getD (i + p + 1) 0 - K.getD i 0) then 0
  else (t - K.getD i 0) / (K.getD (i + p + 1) 0 - K.getD i 0)

/-- Coefficient of `basisFunction p (i+1)` inside `basisFunction (p+1) i`
(zero when the denominator is fuzz-null). -/
def betaCoef (p i : ℕ) (K : List ℚ) (t : ℚ) : ℚ :=
  if qFuzzyIsNull (K.getD (i + p + 2) 0 - K.getD (i + 1) 0) then 0
  else (K.getD (i + p + 2) 0 - t) / (K.getD (i + p + 2) 0 - K.getD (i + 1) 0)

/-- The shared constant `NURBSEditor::HANDLE_RADIUS = 60.0`. -/
def handleRadius : ℝ := 60

/-- Modelled `qAtan2`: the standard four-quadrant arctangent, which
`updateSlopeHandles` applies to the pointer offset. -/
noncomputable def qAtan2 (y x : ℝ) : ℝ :=
  if 0 < x then Real.arctan (y / x)
  else if x < 0 then
    (if 0 ≤ y then Real.arctan (y / x) + Real.pi else Real.arctan (y / x) - Real.pi)
  else if 0 < y then Real.pi / 2
  else if y < 0 then -(Real.pi / 2)
  else 0

/-- Angle/weight fields of a control point, the data written by
`NURBSEditor::updateSlopeHandles`. -/
structure SlopeState where
  slopeAngle : ℝ
  weight : ℝ

/-- Embeds `NURBSEditor::updateSlopeHandles`: from the selected point's
`center` and the pointer position `p`, sets
`slopeAngle = qAtan2(dy, dx)` and `weight = qMax(0.1, distance / HANDLE_RADIUS)`. -/
noncomputable def updateSlopeHandles (center p : ℝ × ℝ) (cp : SlopeState) : SlopeState :=
  let dx := p.1 - center.1
  let dy := p.2 - center.2
  let distance := Real.sqrt (dx * dx + dy * dy)
  { cp with slopeAngle := qAtan2 dy dx, weight := max 0.1 (distance / handleRadius) }

/-- Embeds the `Qt::Key_Up` branch of `NURBSEditor::keyPressEvent`:
`weight += 0.01`. -/
def keyUpWeight (w : ℝ) : ℝ := w + 0.01

/-- Embeds the `Qt::Key_Down` branch of `NURBSEditor::keyPressEvent`:
`weight = qMax(weight - 0.01, 0.1)`. -/
def keyDownWeight (w : ℝ) : ℝ := max (w - 0.01) 0.1

/-- Reachable weight lists of the NURBS editor.  The editor starts with no
control points; `createNewControlPoint` (constructor weight `1.0` followed by
`initSlopeHandles`, which stores `1.0`) appends a weight, a slope-handle drag
rewrites the selected weight through `updateSlopeHandles`, the up/down keys
nudge it, and point deletion / `Key_C` remove weights. -/
inductive WeightsReach : List ℝ → Prop where
  | start : WeightsReach []
  | create (s : List ℝ) (h : WeightsReach s) : WeightsReach (s ++ [1])
  | drag (s : List ℝ) (h : WeightsReach s) (k : ℕ) (hk : k < s.length)
      (center p : ℝ × ℝ) (a w : ℝ) :
      WeightsReach (s.set k ((updateSlopeHandles center p ⟨a, w⟩).weight))
  | keyUp (s : List ℝ) (h : WeightsReach s) (k : ℕ) (hk : k < s.length) :
      WeightsReach (s.set k (keyUpWeight (s.getD k 1)))
  | keyDown (s : List ℝ) (h : WeightsReach s) (k : ℕ) (hk : k < s.length) :
      WeightsReach (s.set k (keyDownWeight (s.getD k 1)))
  | deletePoint (s : List ℝ) (h : WeightsReach s) (k : ℕ) : WeightsReach (s.eraseIdx k)
  | clear (s : List ℝ) (h : WeightsReach s) : WeightsReach []

/-- Small concrete interpolation-point list used to witness C5. -/
def twoPointList : List InterpPoint := [⟨⟨0, 0⟩, ⟨50, 0⟩, false⟩, ⟨⟨4, 2⟩, ⟨1, 1⟩, true⟩]

/-- Concrete spec scenario: three Hermite points at `(0,0)`, `(100,0)`,
`(200,50)`, none with an explicit tangent. -/
def hermiteScenario : List InterpPoint :=
  [⟨⟨0, 0⟩, ⟨50, 0⟩, false⟩, ⟨⟨100, 0⟩, ⟨50, 0⟩, false⟩, ⟨⟨200, 50⟩, ⟨50, 0⟩, false⟩]


@[simp] theorem Pt.add_def (a b : Pt) : a + b = ⟨a.x + b.x, a.y + b.y⟩ := rfl

@[simp] theorem Pt.sub_def (a b : Pt) : a - b = ⟨a.x - b.x, a.y - b.y⟩ := rfl

@[simp] theorem Pt.smul_def (c : ℚ) (a : Pt) : c • a = ⟨c * a.x, c * a.y⟩ := rfl

/-!
Characterisation of `generateKnots`: the value left at every index once the
three assignment loops have run, the length, monotonicity, and the fact that
every entry is an integer multiple of `1 / (pointCount - degree)`.
-/

/-- Folding a list of `set` writes preserves the length. -/
theorem foldl_set_length (l : List ℕ) (g : ℕ → ℚ) (a : List ℚ) :
    (l.foldl (fun ks i => ks.set i (g i)) a).length = a.length := by
  induction l generalizing a with
  | nil => rfl
  | cons i l ih => simp [List.foldl_cons, ih, List.length_set]

/-- Entry left at position `j` after a loop of `set` writes: the written value
if `j` is one of the written (in-bounds) indices, the old entry otherwise. -/
theorem foldl_set_getElem? (l : List ℕ) (g : ℕ → ℚ) (a : List ℚ) (j : ℕ) :
    (l.foldl (fun ks i => ks.set i (g i)) a)[j]? =
      if j ∈ l ∧ j < a.length then some (g j) else a[j]? := by
  induction l generalizing a with
  | nil => simp
  | cons i l ih =>
    rw [List.foldl_cons, ih, List.length_set]
    by_cases hjl : j ∈ l
    · by_cases hlen : j < a.length
      · simp [hjl, hlen]
      · have h1 : a[j]? = none := List.getElem?_eq_none (le_of_not_lt hlen)
        have h2 : (a.set i (g i))[j]? = none :=
          List.getElem?_eq_none (by simpa [List.length_set] using le_of_not_lt hlen)
        simp [hjl, hlen, h1, h2]
    · simp only [List.mem_cons, hjl, or_false]
      rw [List.getElem?_set]
      by_cases hij : i = j
      · subst hij
        by_cases hlen : i < a.length
        · simp [hlen]
        · simp [hlen, List.getElem?_eq_none (le_of_not_lt hlen)]
      · have hji : ¬(j = i) := fun h => hij h.symm
        simp [hij, hji]

theorem mem_knotLoopZero (d j : ℕ) : j ∈ knotLoopZero d ↔ j ≤ d := by
  simp only [knotLoopZero, List.mem_range]
  omega

theorem mem_knotLoopOne (pc d j : ℕ) : j ∈ knotLoopOne pc d ↔ pc ≤ j ∧ j ≤ pc + d := by
  simp only [knotLoopOne, List.mem_map, List.mem_range]
  constructor
  · rintro ⟨a, ha, rfl⟩
    omega
  · intro h
    exact ⟨j - pc, by omega, by omega⟩

theorem mem_knotLoopInterior (pc d j : ℕ) :
    j ∈ knotLoopInterior pc d ↔ d + 1 ≤ j ∧ j < pc := by
  simp only [knotLoopInterior, List.mem_map, List.mem_range]
  constructor
  · rintro ⟨a, ha, rfl⟩
    omega
  · intro h
    exact ⟨j - (d + 1), by omega, by omega⟩

theorem generateKnots_length (pc d : ℕ) : (generateKnots pc d).length = pc + d + 1 := by
  unfold generateKnots
  simp [foldl_set_length]

/-- The value at every index of the generated knot vector: the trailing `1.0`
loop wins on its whole range (in particular on any overlap with the leading
`0.0` range), the interior loop fills strictly between `degree` and
`pointCount`, and everything at or below `degree` is `0`. -/
theorem generateKnots_getD (pc d j : ℕ) (hj : j < pc + d + 1) :
    (generateKnots pc d).getD j 0 =
      if pc ≤ j then 1 else if j ≤ d then 0 else interiorKnot pc d j := by
  have hlen0 : (List.replicate (pc + d + 1) (0 : ℚ)).length = pc + d + 1 := by simp
  have hlen1 :
      ((knotLoopZero d).foldl (fun ks i => ks.set i 0)
        (List.replicate (pc + d + 1) (0 : ℚ))).length = pc + d + 1 := by
    rw [foldl_set_length, hlen0]
  have hlen2 :
      ((knotLoopOne pc d).foldl (fun ks i => ks.set i 1)
        ((knotLoopZero d).foldl (fun ks i => ks.set i 0)
          (List.replicate (pc + d + 1) (0 : ℚ)))).length = pc + d + 1 := by
    rw [foldl_set_length, hlen1]
  rw [List.getD_eq_getElem?_getD]
  unfold generateKnots
  rw [foldl_set_getElem? (knotLoopInterior pc d) (fun i => interiorKnot pc d i) _ j, hlen2,
    foldl_set_getElem? (knotLoopOne pc d) (fun _ => (1 : ℚ)) _ j, hlen1,
    foldl_set_getElem? (knotLoopZero d) (fun _ => (0 : ℚ)) _ j, hlen0]
  simp only [mem_knotLoopInterior, mem_knotLoopOne, mem_knotLoopZero]
  by_cases h1 : pc ≤ j
  · have hni : ¬(d + 1 ≤ j ∧ j < pc) := by omega
    simp [hni, h1, hj, le_of_lt, show j ≤ pc + d by omega]
  · by_cases h0 : j ≤ d
    · have hni : ¬(d + 1 ≤ j ∧ j < pc) := by omega
      simp [hni, h1, h0, hj]
    · simp [show d + 1 ≤ j ∧ j < pc by omega, hj, h1, h0]

/-- Plain form of the interior-loop value: `(i - degree) / (pointCount - degree)`. -/
theorem interiorKnot_eq (pc d i : ℕ) :
    interiorKnot pc d i = (((i : ℤ) - (d : ℤ) : ℤ) : ℚ) / (((pc : ℤ) - (d : ℤ) : ℤ) : ℚ) := by
  unfold interiorKnot
  have h : ((pc : ℤ) - 1) - (d : ℤ) + 1 = (pc : ℤ) - (d : ℤ) := by ring
  rw [h]

theorem generateKnots_one (pc d j : ℕ) (h1 : pc ≤ j) (h2 : j ≤ pc + d) :
    (generateKnots pc d).getD j 0 = 1 := by
  rw [generateKnots_getD pc d j (by omega)]
  simp [h1]

theorem generateKnots_zero (pc d j : ℕ) (h1 : j < pc) (h2 : j ≤ d) :
    (generateKnots pc d).getD j 0 = 0 := by
  rw [generateKnots_getD pc d j (by omega)]
  simp [show ¬ pc ≤ j by omega, h2]

theorem generateKnots_interior (pc d j : ℕ) (h1 : d < j) (h2 : j < pc) :
    (generateKnots pc d).getD j 0 = interiorKnot pc d j := by
  rw [generateKnots_getD pc d j (by omega)]
  simp [show ¬ pc ≤ j by omega, show ¬ j ≤ d by omega]

/-- Every knot entry is `z / (pointCount - degree)` for an integer
`0 ≤ z ≤ pointCount - degree` (degree strictly below point count). -/
theorem generateKnots_multiple (pc d : ℕ) (hd : d < pc) (j : ℕ) (hj : j < pc + d + 1) :
    ∃ z : ℕ, z ≤ pc - d ∧
      (generateKnots pc d).getD j 0 = (z : ℚ) / ((pc : ℚ) - (d : ℚ)) := by
  have hpos : (0 : ℚ) < (pc : ℚ) - (d : ℚ) := by
    have : (d : ℚ) < (pc : ℚ) := by exact_mod_cast hd
    linarith
  rw [generateKnots_getD pc d j hj]
  by_cases h1 : pc ≤ j
  · refine ⟨pc - d, le_refl _, ?_⟩
    have hcast : ((pc - d : ℕ) : ℚ) = (pc : ℚ) - (d : ℚ) := by
      push_cast [Nat.cast_sub (le_of_lt hd)]
      ring
    simp [h1, hcast, div_self (ne_of_gt hpos)]
  · by_cases h0 : j ≤ d
    · refine ⟨0, by omega, ?_⟩
      simp [h1, h0]
    · refine ⟨j - d, by omega, ?_⟩
      simp only [h1, h0, if_false]
      rw [interiorKnot_eq]
      have hc1 : (((j : ℤ) - (d : ℤ) : ℤ) : ℚ) = ((j - d : ℕ) : ℚ) := by
        push_cast [Nat.cast_sub (by omega : d ≤ j)]
        ring
      have hc2 : (((pc : ℤ) - (d : ℤ) : ℤ) : ℚ) = (pc : ℚ) - (d : ℚ) := by
        push_cast
        ring
      rw [hc1, hc2]

/-- The generated knot vector is non-decreasing (for every degree, including
degrees at or above the point count). -/
theorem generateKnots_sorted (pc d : ℕ) (a b : ℕ) (hab : a ≤ b) (hb : b < pc + d + 1) :
    (generateKnots pc d).getD a 0 ≤ (generateKnots pc d).getD b 0 := by
  rw [generateKnots_getD pc d a (by omega), generateKnots_getD pc d b hb]
  by_cases hb1 : pc ≤ b
  · by_cases ha1 : pc ≤ a
    · simp [ha1, hb1]
    · by_cases ha0 : a ≤ d
      · simp [ha1, ha0, hb1]
      · simp only [ha1, hb1, if_false, if_true, show ¬ a ≤ d by omega]
        rw [interiorKnot_eq]
        have hdpc : d < pc := by omega
        have hden : (0 : ℚ) < (((pc : ℤ) - (d : ℤ) : ℤ) : ℚ) := by
          have h : ((d : ℤ) : ℚ) < ((pc : ℤ) : ℚ) := by exact_mod_cast hdpc
          push_cast at h ⊢
          linarith
        rw [div_le_one hden]
        have h : ((a : ℤ) : ℚ) ≤ ((pc : ℤ) : ℚ) := by exact_mod_cast le_of_lt (by omega : a < pc)
        push_cast at h ⊢
        linarith
  · by_cases hb0 : b ≤ d
    · simp [show ¬ pc ≤ a by omega, show a ≤ d by omega, hb1, hb0]
    · have hdb : d < b ∧ b < pc := ⟨by omega, by omega⟩
      simp only [hb1, hb0, if_false]
      by_cases ha0 : a ≤ d
      · simp only [show ¬ pc ≤ a by omega, ha0, if_false, if_true]
        rw [interiorKnot_eq]
        apply div_nonneg
        · have : ((d : ℤ) : ℚ) ≤ ((b : ℤ) : ℚ) := by exact_mod_cast le_of_lt hdb.1
          push_cast at this ⊢
          linarith
        · have : ((d : ℤ) : ℚ) ≤ ((pc : ℤ) : ℚ) := by
            exact_mod_cast le_of_lt (hdb.1.trans hdb.2)
          push_cast at this ⊢
          linarith
      · simp only [show ¬ pc ≤ a by omega, ha0, if_false]
        rw [interiorKnot_eq, interiorKnot_eq]
        have hdpc : (d : ℚ) < (pc : ℚ) := by exact_mod_cast hdb.1.trans hdb.2
        have hab' : ((a : ℚ)) ≤ (b : ℚ) := by exact_mod_cast hab
        push_cast
        rw [div_le_div_iff₀ (by linarith) (by linarith)]
        nlinarith

/-!
Cox–de Boor machinery: the recursion written with explicit coefficients,
the local-support property, and the telescoping argument giving partition of
unity on the generated clamped knot vectors.
-/

/-- The recursive case of `basisFunction`, with each guarded term factored as
coefficient times lower-degree basis value. -/
theorem basisFunction_recur (p i : ℕ) (K : List ℚ) (t : ℚ) :
    basisFunction (p + 1) i K t =
      alphaCoef p i K t * basisFunction p i K t +
        betaCoef p i K t * basisFunction p (i + 1) K t := by
  show (let denom1 := K.getD (i + (p + 1)) 0 - K.getD i 0
    let term1 :=
      if qFuzzyIsNull denom1 then 0
      else (t - K.getD i 0) / denom1 * basisFunction p i K t
    let denom2 := K.getD (i + (p + 1) + 1) 0 - K.getD (i + 1) 0
    let term2 :=
      if qFuzzyIsNull denom2 then 0
      else (K.getD (i + (p + 1) + 1) 0 - t) / denom2 * basisFunction p (i + 1) K t
    term1 + term2) = _
  simp only [alphaCoef, betaCoef, show i + (p + 1) = i + p + 1 from rfl,
    show i + p + 1 + 1 = i + p + 2 from rfl]
  split_ifs <;> ring

/-- Local support: a nonzero basis value forces `t` into the half-open span
`[knots i, knots (i+p+1))`, provided the knot list is non-decreasing. -/
theorem basisFunction_support (K : List ℚ)
    (hs : ∀ a b : ℕ, a ≤ b → b < K.length → K.getD a 0 ≤ K.getD b 0)
    (p : ℕ) (t : ℚ) :
    ∀ i : ℕ, i + p + 1 < K.length → basisFunction p i K t ≠ 0 →
      K.getD i 0 ≤ t ∧ t < K.getD (i + p + 1) 0 := by
  induction p with
  | zero =>
    intro i hb hnz
    revert hnz
    simp only [basisFunction]
    split_ifs with h
    · intro _
      exact h
    · intro hh
      exact absurd rfl hh
  | succ q ih =>
    intro i hb hnz
    rw [basisFunction_recur] at hnz
    have hcase : alphaCoef q i K t * basisFunction q i K t ≠ 0 ∨
        betaCoef q i K t * basisFunction q (i + 1) K t ≠ 0 := by
      by_contra hc
      push_neg at hc
      rw [hc.1, hc.2] at hnz
      exact hnz (by ring)
    rcases hcase with h1 | h2
    · have hb1 : basisFunction q i K t ≠ 0 := fun hh => h1 (by rw [hh]; ring)
      have hsupp := ih i (by omega) hb1
      refine ⟨hsupp.1, lt_of_lt_of_le hsupp.2 ?_⟩
      exact hs (i + q + 1) (i + (q + 1) + 1) (by omega) hb
    · have hb2 : basisFunction q (i + 1) K t ≠ 0 := fun hh => h2 (by rw [hh]; ring)
      have hsupp := ih (i + 1) (by omega) hb2
      refine ⟨le_trans ?_ hsupp.1, ?_⟩
      · exact hs i (i + 1) (by omega) (by omega)
      · have he : i + 1 + q + 1 = i + (q + 1) + 1 := by omega
        rw [he] at hsupp
        exact hsupp.2

/-- Degree-zero basis functions sum to the indicator of `[knots 0, knots M)`:
consecutive half-open knot spans tile the interval. -/
theorem sum_basis_zero (K : List ℚ)
    (hs : ∀ a b : ℕ, a ≤ b → b < K.length → K.getD a 0 ≤ K.getD b 0)
    (t : ℚ) :
    ∀ M : ℕ, M < K.length →
      Finset.sum (Finset.range M) (fun i => basisFunction 0 i K t) =
        if K.getD 0 0 ≤ t ∧ t < K.getD M 0 then 1 else 0 := by
  intro M
  induction M with
  | zero =>
    intro _
    rw [Finset.sum_range_zero, if_neg]
    intro hh
    exact absurd (lt_of_le_of_lt hh.1 hh.2) (lt_irrefl _)
  | succ M ih =>
    intro hM
    rw [Finset.sum_range_succ, ih (by omega)]
    simp only [basisFunction]
    by_cases h1 : K.getD 0 0 ≤ t
    · by_cases h2 : t < K.getD M 0
      · have hn : ¬(K.getD M 0 ≤ t ∧ t < K.getD (M + 1) 0) := fun hh =>
          absurd h2 (not_lt_of_le hh.1)
        rw [if_pos ⟨h1, h2⟩, if_neg hn,
          if_pos ⟨h1, lt_of_lt_of_le h2 (hs M (M + 1) (by omega) hM)⟩]
        norm_num
      · have hKM : K.getD M 0 ≤ t := le_of_not_lt h2
        rw [if_neg (fun hh => h2 hh.2)]
        by_cases h3 : t < K.getD (M + 1) 0
        · rw [if_pos ⟨hKM, h3⟩, if_pos ⟨h1, h3⟩]
          norm_num
        · rw [if_neg (fun hh => h3 hh.2), if_neg (fun hh => h3 hh.2)]
          norm_num
    · have hn : ¬(K.getD M 0 ≤ t ∧ t < K.getD (M + 1) 0) := fun hh =>
        h1 (le_trans (hs 0 M (by omega) (by omega)) hh.1)
      rw [if_neg (fun hh => h1 hh.1), if_neg hn, if_neg (fun hh => h1 hh.1)]
      norm_num

/-- Telescoping step of the partition-of-unity argument: when the extreme
basis values of level `p` vanish and no in-range nonzero knot difference is
fuzz-null, the level `p+1` sum over `range N` equals the level `p` sum over
`range (N+1)`. -/
theorem sum_basis_step (K : List ℚ)
    (hs : ∀ a b : ℕ, a ≤ b → b < K.length → K.getD a 0 ≤ K.getD b 0)
    (hsep : ∀ a b : ℕ, a ≤ b → b < K.length →
      |K.getD b 0 - K.getD a 0| ≤ fuzzEps → K.getD b 0 = K.getD a 0)
    (p N : ℕ) (hb : N + p + 1 < K.length) (t : ℚ)
    (hz0 : basisFunction p 0 K t = 0) (hzN : basisFunction p N K t = 0) :
    Finset.sum (Finset.range N) (fun i => basisFunction (p + 1) i K t) =
      Finset.sum (Finset.range (N + 1)) (fun i => basisFunction p i K t) := by
  have hsplit :
      Finset.sum (Finset.range N) (fun i => basisFunction (p + 1) i K t) =
        Finset.sum (Finset.range N) (fun i => alphaCoef p i K t * basisFunction p i K t) +
          Finset.sum (Finset.range N)
            (fun i => betaCoef p i K t * basisFunction p (i + 1) K t) := by
    rw [← Finset.sum_add_distrib]
    exact Finset.sum_congr rfl (fun i _ => basisFunction_recur p i K t)
  have hshift :
      Finset.sum (Finset.range N) (fun i => betaCoef p i K t * basisFunction p (i + 1) K t) =
        Finset.sum (Finset.range (N + 1))
          (fun j => if j = 0 then 0 else betaCoef p (j - 1) K t * basisFunction p j K t) := by
    rw [Finset.sum_range_succ'
      (fun j => if j = 0 then 0 else betaCoef p (j - 1) K t * basisFunction p j K t) N]
    simp
  have hA :
      Finset.sum (Finset.range N) (fun i => alphaCoef p i K t * basisFunction p i K t) =
        Finset.sum (Finset.range (N + 1))
          (fun i => alphaCoef p i K t * basisFunction p i K t) := by
    rw [Finset.sum_range_succ, hzN]
    ring
  rw [hsplit, hshift, hA, ← Finset.sum_add_distrib]
  apply Finset.sum_congr rfl
  intro j hj
  rw [Finset.mem_range] at hj
  by_cases hj0 : j = 0
  · subst hj0
    rw [hz0]
    simp
  · simp only [hj0, if_false]
    by_cases hNj : basisFunction p j K t = 0
    · rw [hNj]
      ring
    · obtain ⟨k, rfl⟩ : ∃ k, j = k + 1 := ⟨j - 1, by omega⟩
      have hbj : k + 1 + p + 1 < K.length := by omega
      have hsupp := basisFunction_support K hs p t (k + 1) hbj hNj
      have hD : 0 < K.getD (k + 1 + p + 1) 0 - K.getD (k + 1) 0 := by
        linarith [hsupp.1, hsupp.2]
      have hfz : ¬ qFuzzyIsNull (K.getD (k + 1 + p + 1) 0 - K.getD (k + 1) 0) := by
        intro hf
        have heq := hsep (k + 1) (k + 1 + p + 1) (by omega) (by omega) hf
        rw [heq] at hD
        exact absurd hD (by simp)
      have he1 : k + 1 - 1 = k := by omega
      have he2 : k + p + 2 = k + 1 + p + 1 := by omega
      simp only [he1, alphaCoef, betaCoef, he2]
      rw [if_neg hfz, if_neg hfz, div_mul_eq_mul_div, div_mul_eq_mul_div,
        div_add_div_same]
      rw [show (t - K.getD (k + 1) 0) * basisFunction p (k + 1) K t +
          (K.getD (k + 1 + p + 1) 0 - t) * basisFunction p (k + 1) K t =
          (K.getD (k + 1 + p + 1) 0 - K.getD (k + 1) 0) * basisFunction p (k + 1) K t
        from by ring]
      rw [mul_comm, mul_div_assoc, div_self (ne_of_gt hD), mul_one]

/-- Sortedness of the generated knots, phrased against the list's length. -/
theorem generateKnots_sorted' (pc d : ℕ) :
    ∀ a b : ℕ, a ≤ b → b < (generateKnots pc d).length →
      (generateKnots pc d).getD a 0 ≤ (generateKnots pc d).getD b 0 := by
  intro a b hab hb
  rw [generateKnots_length] at hb
  exact generateKnots_sorted pc d a b hab hb

/-- When `pointCount - degree < 10^12`, every in-range knot difference that is
within the Qt fuzz threshold is exactly zero: distinct knots are multiples of
`1 / (pointCount - degree)` apart, which exceeds `10^-12`. -/
theorem generateKnots_sep (pc d : ℕ) (hd : d < pc) (hgap : pc - d < 1000000000000) :
    ∀ a b : ℕ, a ≤ b → b < (generateKnots pc d).length →
      |(generateKnots pc d).getD b 0 - (generateKnots pc d).getD a 0| ≤ fuzzEps →
      (generateKnots pc d).getD b 0 = (generateKnots pc d).getD a 0 := by
  intro a b hab hb hfz
  rw [generateKnots_length] at hb
  obtain ⟨za, hza, hva⟩ := generateKnots_multiple pc d hd a (by omega)
  obtain ⟨zb, hzb, hvb⟩ := generateKnots_multiple pc d hd b hb
  rw [hva, hvb] at hfz ⊢
  have hpos : (0 : ℚ) < (pc : ℚ) - (d : ℚ) := by
    have h : (d : ℚ) < (pc : ℚ) := by exact_mod_cast hd
    linarith
  rw [div_sub_div_same, abs_div, abs_of_pos hpos, div_le_iff₀ hpos] at hfz
  have hlt : fuzzEps * ((pc : ℚ) - (d : ℚ)) < 1 := by
    have hc : ((pc - d : ℕ) : ℚ) < 1000000000000 := by exact_mod_cast hgap
    have hc2 : (pc : ℚ) - (d : ℚ) = ((pc - d : ℕ) : ℚ) := by
      push_cast [Nat.cast_sub (le_of_lt hd)]
      ring
    rw [hc2]
    unfold fuzzEps
    rw [div_mul_eq_mul_div, one_mul, div_lt_one (by norm_num)]
    exact hc
  have habs : |(zb : ℚ) - (za : ℚ)| < 1 := lt_of_le_of_lt hfz hlt
  have hz : za = zb := by
    have h2 : |(zb : ℤ) - (za : ℤ)| < 1 := by exact_mod_cast habs
    rw [abs_lt] at h2
    omega
  rw [hz]

/-- Partition of unity at every level `p ≤ degree`: over the generated
clamped knot vector the level-`p` basis functions indexed
`0 .. pointCount + degree - p - 1` sum to `1` for `t ∈ [0, 1)`, provided the
knot spacing stays above the fuzz threshold. -/
theorem partition_levels (pc d : ℕ) (hd1 : 1 ≤ d) (hdpc : d < pc)
    (hgap : pc - d < 1000000000000) (t : ℚ) (h0 : 0 ≤ t) (h1 : t < 1) :
    ∀ p : ℕ, p ≤ d →
      Finset.sum (Finset.range (pc + d - p))
        (fun i => basisFunction p i (generateKnots pc d) t) = 1 := by
  have hs := generateKnots_sorted' pc d
  have hsep := generateKnots_sep pc d hdpc hgap
  have hlen := generateKnots_length pc d
  have hK0 : (generateKnots pc d).getD 0 0 = 0 :=
    generateKnots_zero pc d 0 (by omega) (by omega)
  have hKtop : (generateKnots pc d).getD (pc + d) 0 = 1 :=
    generateKnots_one pc d (pc + d) (by omega) (by omega)
  intro p
  induction p with
  | zero =>
    intro _
    rw [Nat.sub_zero, sum_basis_zero (generateKnots pc d) hs t (pc + d) (by omega),
      hK0, hKtop, if_pos ⟨h0, h1⟩]
  | succ q ih =>
    intro hq
    have hN1 : pc + d - (q + 1) + 1 = pc + d - q := by omega
    have hz0 : basisFunction q 0 (generateKnots pc d) t = 0 := by
      by_contra hnz
      have hsupp := basisFunction_support (generateKnots pc d) hs q t 0 (by omega) hnz
      have hKq : (generateKnots pc d).getD (0 + q + 1) 0 = 0 := by
        rw [Nat.zero_add]
        exact generateKnots_zero pc d (q + 1) (by omega) (by omega)
      rw [hKq] at hsupp
      linarith [hsupp.2]
    have hzN : basisFunction q (pc + d - (q + 1)) (generateKnots pc d) t = 0 := by
      by_contra hnz
      have hsupp := basisFunction_support (generateKnots pc d) hs q t
        (pc + d - (q + 1)) (by omega) hnz
      have hKN : (generateKnots pc d).getD (pc + d - (q + 1)) 0 = 1 :=
        generateKnots_one pc d (pc + d - (q + 1)) (by omega) (by omega)
      rw [hKN] at hsupp
      linarith [hsupp.1]
    rw [sum_basis_step (generateKnots pc d) hs hsep q (pc + d - (q + 1))
      (by omega) t hz0 hzN, hN1]
    exact ih (by omega)

/-- Partition of unity for the evaluation-level sum: over the knot vector of
`generateKnots`, the `pointCount` basis functions of the configured degree sum
to exactly `1` on `[0, 1)` (fuzz threshold respected). -/
theorem partition_of_unity (pc d : ℕ) (hd1 : 1 ≤ d) (hdpc : d < pc)
    (hgap : pc - d < 1000000000000) (t : ℚ) (h0 : 0 ≤ t) (h1 : t < 1) :
    Finset.sum (Finset.range pc)
      (fun i => basisFunction d i (generateKnots pc d) t) = 1 := by
  have h := partition_levels pc d hd1 hdpc hgap t h0 h1 d (le_refl d)
  rw [show pc + d - d = pc by omega] at h
  exact h

/-!
Indexing lemmas for the Hermite sampler.
-/

/-- Length of a `flatMap` over `List.range` with constant block length. -/
theorem length_flatMap_const {α : Type} (f : ℕ → List α) (c : ℕ)
    (hc : ∀ x, (f x).length = c) :
    ∀ n : ℕ, ((List.range n).flatMap f).length = n * c := by
  intro n
  induction n with
  | zero => simp
  | succ m ih =>
    rw [List.range_succ, List.flatMap_append, List.length_append, ih]
    simp [hc, Nat.succ_mul]

/-- Entry `k * c + j` of a `flatMap` over `List.range` with constant block
length `c` is entry `j` of block `k`. -/
theorem flatMap_range_getElem? {α : Type} (f : ℕ → List α) (c : ℕ)
    (hc : ∀ x, (f x).length = c) :
    ∀ (n k j : ℕ), k < n → j < c →
      ((List.range n).flatMap f)[k * c + j]? = (f k)[j]? := by
  intro n
  induction n with
  | zero =>
    intro k j hk _
    exact absurd hk (Nat.not_lt_zero k)
  | succ m ih =>
    intro k j hk hj
    rw [List.range_succ, List.flatMap_append, List.getElem?_append]
    rw [length_flatMap_const f c hc m]
    by_cases hkm : k < m
    · have hlt : k * c + j < m * c := by
        have h1 : k * c + j < (k + 1) * c := by
          rw [Nat.succ_mul]
          omega
        have h2 : (k + 1) * c ≤ m * c := Nat.mul_le_mul_right c hkm
        omega
      rw [if_pos hlt]
      exact ih k j hkm hj
    · have hkem : k = m := by omega
      subst hkem
      rw [if_neg (by omega), Nat.add_sub_cancel_left]
      simp

/-- Length of a Hermite sample: `(pointCount - 1)` segments of `resolution + 1`
path points each, concatenated without de-duplication. -/
theorem sampleHermite_length (pts : List InterpPoint) (res : ℕ) (h2 : 2 ≤ pts.length) :
    (sampleHermite pts res).length = (pts.length - 1) * (res + 1) := by
  unfold sampleHermite
  rw [if_neg (by omega)]
  exact length_flatMap_const _ (res + 1) (fun x => by simp) (pts.length - 1)

/-- Sample point `i * (res+1) + j` is exactly the Hermite blend of segment `i`
at parameter `j / res`, with the source's tangent-resolution rule. -/
theorem sampleHermite_getElem? (pts : List InterpPoint) (res : ℕ) (h2 : 2 ≤ pts.length)
    (i j : ℕ) (hi : i < pts.length - 1) (hj : j < res + 1) :
    (sampleHermite pts res)[i * (res + 1) + j]? =
      some (hermiteInterp (pts.getD i default).position (usedTangent pts i)
        (pts.getD (i + 1) default).position (usedTangent pts (i + 1)) ((j : ℚ) / (res : ℚ))) := by
  unfold sampleHermite
  rw [if_neg (by omega)]
  rw [flatMap_range_getElem? _ (res + 1) (fun x => by simp) (pts.length - 1) i j hi hj]
  rw [List.getElem?_map, List.getElem?_range hj]
  rfl

/-!
Real-valued embedding of the weight-handling code of `NURBSEditor`
(`updateSlopeHandles` uses `qSqrt`/`qAtan2`, so this part lives over `ℝ`),
and the transition system spanned by every weight-mutating operation.
-/

/-- Every reachable weight is at least `0.1`. -/
theorem weightsReach_invariant (s : List ℝ) (h : WeightsReach s) :
    ∀ w ∈ s, (0.1 : ℝ) ≤ w := by
  induction h with
  | start =>
    intro w hw
    exact absurd hw (List.not_mem_nil w)
  | create s h ih =>
    intro w hw
    rcases List.mem_append.mp hw with h1 | h2
    · exact ih w h1
    · rw [List.mem_singleton.mp h2]
      norm_num
  | drag s h k hk center p a w0 ih =>
    intro w hw
    rcases List.mem_or_eq_of_mem_set hw with h1 | h2
    · exact ih w h1
    · rw [h2]
      exact le_max_left _ _
  | keyUp s h k hk ih =>
    intro w hw
    rcases List.mem_or_eq_of_mem_set hw with h1 | h2
    · exact ih w h1
    · rw [h2]
      have hmem : s.getD k 1 ∈ s := by
        rw [List.getD_eq_getElem?_getD, List.getElem?_eq_getElem hk]
        exact List.getElem_mem hk
      have := ih (s.getD k 1) hmem
      unfold keyUpWeight
      linarith
  | keyDown s h k hk ih =>
    intro w hw
    rcases List.mem_or_eq_of_mem_set hw with h1 | h2
    · exact ih w h1
    · rw [h2]
      exact le_max_right _ _
  | deletePoint s h k ih =>
    intro w hw
    exact ih w (List.eraseIdx_subset s k hw)
  | clear s h ih =>
    intro w hw
    exact absurd hw (List.not_mem_nil w)

/-!
Claim theorems.
-/

/-- C1: for every NURBS configuration with at least two control points,
`evaluateNURBS` returns the first control point's position exactly whenever
`t ≤ 0` and the last control point's position exactly whenever `t ≥ 1`; both
branches fire before any knot/basis computation. -/
theorem claim_C1_endpoint_clamp (cps : List ControlPoint) (deg : ℕ) (t : ℚ)
    (h2 : 2 ≤ cps.length) :
    (t ≤ 0 → evaluateNURBS cps deg t = (cps.headD default).position) ∧
    (1 ≤ t → evaluateNURBS cps deg t = (cps.getLast?.getD default).position) := by
  constructor
  · intro ht
    unfold evaluateNURBS
    rw [if_neg (by omega), if_pos ht]
  · intro ht
    unfold evaluateNURBS
    rw [if_neg (by omega), if_neg (by linarith), if_pos ht]

/-- C1 witness: a concrete two-point configuration evaluated at the clamped
parameters `t = 0` and `t = 1`. -/
theorem claim_C1_endpoint_clamp_witness :
    evaluateNURBS [⟨⟨1, 2⟩, 1⟩, ⟨⟨3, 4⟩, 1⟩] 3 0 = ⟨1, 2⟩ ∧
    evaluateNURBS [⟨⟨1, 2⟩, 1⟩, ⟨⟨3, 4⟩, 1⟩] 3 1 = ⟨3, 4⟩ :=
  ⟨(claim_C1_endpoint_clamp [⟨⟨1, 2⟩, 1⟩, ⟨⟨3, 4⟩, 1⟩] 3 0 (by norm_num)).1 (le_refl 0),
    (claim_C1_endpoint_clamp [⟨⟨1, 2⟩, 1⟩, ⟨⟨3, 4⟩, 1⟩] 3 1 (by norm_num)).2 (le_refl 1)⟩

/-- C2: for `pointCount ≥ 2` and `1 ≤ degree ≤ pointCount - 1`,
`generateKnots` has length `pointCount + degree + 1`, its first `degree + 1`
entries are `0`, its last `degree + 1` entries are `1`, and each interior
entry at index `i` (for `degree + 1 ≤ i ≤ m - degree - 1 = pointCount - 1`)
equals `(i - degree) / (n - degree + 1)` with `n = pointCount - 1`. -/
theorem claim_C2_knot_vector (pc d : ℕ) (hpc : 2 ≤ pc) (_hd1 : 1 ≤ d) (hd2 : d ≤ pc - 1) :
    (generateKnots pc d).length = pc + d + 1 ∧
    (∀ i : ℕ, i ≤ d → (generateKnots pc d).getD i 0 = 0) ∧
    (∀ i : ℕ, pc ≤ i → i ≤ pc + d → (generateKnots pc d).getD i 0 = 1) ∧
    (∀ i : ℕ, d + 1 ≤ i → i ≤ pc - 1 →
      (generateKnots pc d).getD i 0 =
        ((i : ℚ) - (d : ℚ)) / (((pc : ℚ) - 1) - (d : ℚ) + 1)) := by
  refine ⟨generateKnots_length pc d, ?_, ?_, ?_⟩
  · intro i hi
    exact generateKnots_zero pc d i (by omega) hi
  · intro i h1 h2
    exact generateKnots_one pc d i h1 h2
  · intro i h1 h2
    rw [generateKnots_interior pc d i (by omega) (by omega), interiorKnot_eq]
    push_cast
    ring_nf

/-- C2 witness: `pointCount = 4`, `degree = 2`; length, clamped ends and the
interior entry at index 3. -/
theorem claim_C2_knot_vector_witness :
    (generateKnots 4 2).length = 4 + 2 + 1 ∧
    (generateKnots 4 2).getD 2 0 = 0 ∧
    (generateKnots 4 2).getD 4 0 = 1 ∧
    (generateKnots 4 2).getD 3 0 = ((3 : ℚ) - 2) / (((4 : ℚ) - 1) - 2 + 1) :=
  ⟨(claim_C2_knot_vector 4 2 (by norm_num) (by norm_num) (by norm_num)).1,
    (claim_C2_knot_vector 4 2 (by norm_num) (by norm_num) (by norm_num)).2.1 2 (by norm_num),
    (claim_C2_knot_vector 4 2 (by norm_num) (by norm_num) (by norm_num)).2.2.1 4
      (by norm_num) (by norm_num),
    (claim_C2_knot_vector 4 2 (by norm_num) (by norm_num) (by norm_num)).2.2.2 3
      (by norm_num) (by norm_num)⟩

/-- C3: `basisFunction` is the Cox–de Boor recursion: degree 0 is the
half-open interval indicator `[knots i, knots (i+1))`, and degree `p+1` is
`term1 + term2` with the source's coefficients, each term taken as `0` when
its denominator is within `fuzzEps = 10^-12` of zero (an epsilon comparison,
so no near-zero division is performed). -/
theorem claim_C3_cox_de_boor (p i : ℕ) (knots : List ℚ) (t : ℚ) :
    (basisFunction 0 i knots t =
      if knots.getD i 0 ≤ t ∧ t < knots.getD (i + 1) 0 then 1 else 0) ∧
    (basisFunction (p + 1) i knots t =
      (if |knots.getD (i + p + 1) 0 - knots.getD i 0| ≤ fuzzEps then 0
        else (t - knots.getD i 0) / (knots.getD (i + p + 1) 0 - knots.getD i 0) *
          basisFunction p i knots t) +
      (if |knots.getD (i + p + 2) 0 - knots.getD (i + 1) 0| ≤ fuzzEps then 0
        else (knots.getD (i + p + 2) 0 - t) / (knots.getD (i + p + 2) 0 - knots.getD (i + 1) 0) *
          basisFunction p (i + 1) knots t)) := by
  constructor
  · rfl
  · rw [basisFunction_recur]
    unfold alphaCoef betaCoef qFuzzyIsNull
    split_ifs <;> ring

/-- C4: for every configuration the source can hold (a Qt `QVector` is
`int`-indexed, so `pointCount < 2^31`) with `1 ≤ degree ≤ pointCount - 1`,
and every parameter `t` strictly inside `[0, 1)`, the sum over
`i = 0 .. pointCount - 1` of `basisFunction degree i knots t` over the
generated knot vector equals `1` exactly: every positive knot spacing is at
least `1 / (pointCount - degree) > 10^-12`, so the fuzz guard coincides with
an exact zero test and the Cox-de Boor telescoping goes through. -/
theorem claim_C4_partition_of_unity (pc d : ℕ) (hrep : pc < 2147483648)
    (hd1 : 1 ≤ d) (hd2 : d ≤ pc - 1) (t : ℚ) (h0 : 0 < t) (h1 : t < 1) :
    Finset.sum (Finset.range pc) (fun i => basisFunction d i (generateKnots pc d) t) = 1 :=
  partition_of_unity pc d hd1 (by omega) (by omega) t (le_of_lt h0) h1

/-- C4 witness: `pointCount = 4`, `degree = 2`, `t = 1/3`. -/
theorem claim_C4_partition_of_unity_witness :
    Finset.sum (Finset.range 4) (fun i => basisFunction 2 i (generateKnots 4 2) (1 / 3)) = 1 :=
  claim_C4_partition_of_unity 4 2 (by norm_num) (by norm_num) (by norm_num)
    (1 / 3) (by norm_num) (by norm_num)

/-- C5: each sampled Hermite point is
`h00·p0 + h10·t0 + h01·p1 + h11·t1` with the four cubic Hermite polynomials of
the source, where each segment tangent is the stored tangent when
`hasTangent` and otherwise the automatic tangent (one-sided scaled difference
at the two ends, centred difference in between), and the automatic tangents
are functions of the current positions: moving a point through `movePoint`
immediately changes the neighbouring auto-tangent, with no caching. -/
theorem claim_C5_hermite_blend (pts : List InterpPoint) (res : ℕ) (h2 : 2 ≤ pts.length)
    (i j : ℕ) (hi : i < pts.length - 1) (hj : j ≤ res) :
    ((sampleHermite pts res)[i * (res + 1) + j]? =
      some ((2 * ((j : ℚ) / (res : ℚ)) * ((j : ℚ) / (res : ℚ)) * ((j : ℚ) / (res : ℚ)) -
            3 * ((j : ℚ) / (res : ℚ)) * ((j : ℚ) / (res : ℚ)) + 1) •
          (pts.getD i default).position +
        (((j : ℚ) / (res : ℚ)) * ((j : ℚ) / (res : ℚ)) * ((j : ℚ) / (res : ℚ)) -
            2 * ((j : ℚ) / (res : ℚ)) * ((j : ℚ) / (res : ℚ)) + ((j : ℚ) / (res : ℚ))) •
          (if (pts.getD i default).hasTangent then (pts.getD i default).tangent
            else autoTangent pts i) +
        (-2 * ((j : ℚ) / (res : ℚ)) * ((j : ℚ) / (res : ℚ)) * ((j : ℚ) / (res : ℚ)) +
            3 * ((j : ℚ) / (res : ℚ)) * ((j : ℚ) / (res : ℚ))) •
          (pts.getD (i + 1) default).position +
        (((j : ℚ) / (res : ℚ)) * ((j : ℚ) / (res : ℚ)) * ((j : ℚ) / (res : ℚ)) -
            ((j : ℚ) / (res : ℚ)) * ((j : ℚ) / (res : ℚ))) •
          (if (pts.getD (i + 1) default).hasTangent then (pts.getD (i + 1) default).tangent
            else autoTangent pts (i + 1)))) ∧
    autoTangent pts 0 =
      (0.5 : ℚ) • ((pts.getD 1 default).position - (pts.getD 0 default).position) ∧
    autoTangent pts (pts.length - 1) =
      (0.5 : ℚ) • ((pts.getD (pts.length - 1) default).position -
        (pts.getD (pts.length - 2) default).position) ∧
    (∀ m : ℕ, 0 < m → m < pts.length - 1 →
      autoTangent pts m =
        (0.5 : ℚ) • ((pts.getD (m + 1) default).position -
          (pts.getD (m - 1) default).position)) ∧
    (∀ k : ℕ, k < pts.length → ∀ q : Pt, ∀ m : ℕ, 0 < m → m < pts.length - 1 → m + 1 = k →
      autoTangent (movePoint pts k q) m =
        (0.5 : ℚ) • (q - (pts.getD (m - 1) default).position)) := by
  refine ⟨?_, ?_, ?_, ?_, ?_⟩
  · rw [sampleHermite_getElem? pts res h2 i j hi (by omega)]
    rfl
  · simp [autoTangent]
  · unfold autoTangent
    rw [if_neg (by omega), if_pos rfl]
    have he : pts.length - 1 - 1 = pts.length - 2 := by omega
    rw [he]
  · intro m hm1 hm2
    unfold autoTangent
    rw [if_neg (by omega), if_neg (by omega)]
  · intro k hk q m hm1 hm2 hmk
    have hlen : (movePoint pts k q).length = pts.length := by
      simp [movePoint]
    have hget_k : (movePoint pts k q).getD k default =
        { pts.getD k default with position := q } := by
      unfold movePoint
      rw [List.getD_eq_getElem?_getD, List.getElem?_set, if_pos rfl, if_pos hk]
      rfl
    have hget_ne : (movePoint pts k q).getD (m - 1) default = pts.getD (m - 1) default := by
      unfold movePoint
      rw [List.getD_eq_getElem?_getD, List.getElem?_set, if_neg (by omega),
        ← List.getD_eq_getElem?_getD]
    unfold autoTangent
    simp only [hlen]
    rw [if_neg (by omega), if_neg (by omega), hmk, hget_k, hget_ne]

/-- C5 witness: a 2-point list, segment 0, `j = 1`, `res = 2`; the
auto-tangent conjunct at the first point. -/
theorem claim_C5_hermite_blend_witness :
    autoTangent twoPointList 0 =
      (0.5 : ℚ) •
        ((twoPointList.getD 1 default).position - (twoPointList.getD 0 default).position) :=
  (claim_C5_hermite_blend twoPointList 2
    (by norm_num [twoPointList]) 0 1 (by norm_num [twoPointList]) (by norm_num)).2.1

/-- C6 counterexample: in the concrete scenario (3 points, `resolution = 4`)
the sample has 10 points, not the 8 points the spec's scenario states (nor 9,
its alternative de-duplicated convention). -/
theorem claim_C6_counterexample :
    (sampleHermite hermiteScenario 4).length ≠ 8 ∧
    (sampleHermite hermiteScenario 4).length ≠ 9 := by
  have hlen : (sampleHermite hermiteScenario 4).length = 10 := by
    rw [sampleHermite_length hermiteScenario 4 (by norm_num [hermiteScenario])]
    norm_num [hermiteScenario]
  rw [hlen]
  norm_num

/-- C6 (amended): the sampler emits `(pointCount-1)·(resolution+1)` points
(segment endpoints duplicated, no de-duplication), so the concrete scenario
with 3 points and `resolution = 4` yields 10 points — not 8 as the spec's
scenario states — whose first sampled point is `(0,0)` and whose last is
`(200,50)`. -/
theorem claim_C6_sample_count :
    (∀ (pts : List InterpPoint) (res : ℕ), 2 ≤ pts.length →
      (sampleHermite pts res).length = (pts.length - 1) * (res + 1)) ∧
    (sampleHermite hermiteScenario 4).length = 10 ∧
    (sampleHermite hermiteScenario 4).head? = some ⟨0, 0⟩ ∧
    (sampleHermite hermiteScenario 4).getLast? = some ⟨200, 50⟩ := by
  refine ⟨fun pts res h2 => sampleHermite_length pts res h2, ?_, ?_, ?_⟩
  · rw [sampleHermite_length hermiteScenario 4 (by norm_num [hermiteScenario])]
    norm_num [hermiteScenario]
  · norm_num [hermiteScenario, sampleHermite, List.range_succ, hermiteInterp,
      usedTangent, autoTangent]
  · norm_num [hermiteScenario, sampleHermite, List.range_succ, hermiteInterp,
      usedTangent, autoTangent]

/-- C6 witness: the general count formula applied to the concrete scenario. -/
theorem claim_C6_sample_count_witness :
    (sampleHermite hermiteScenario 4).length = (hermiteScenario.length - 1) * (4 + 1) :=
  claim_C6_sample_count.1 hermiteScenario 4 (by norm_num [hermiteScenario])

/-- Weight written by `updateSlopeHandles`, unfolded. -/
theorem updateSlopeHandles_weight (center p : ℝ × ℝ) (cp : SlopeState) :
    (updateSlopeHandles center p cp).weight =
      max 0.1 (Real.sqrt ((p.1 - center.1) * (p.1 - center.1) +
        (p.2 - center.2) * (p.2 - center.2)) / handleRadius) := rfl

/-- C7: the handle drag sets the angle to `atan2(Δy, Δx)` and the weight to
`max(0.1, distance / HANDLE_RADIUS)`; the weight never drops below `0.1`,
equals exactly `0.1` when the pointer coincides with the point's centre, and
has no upper bound. -/
theorem claim_C7_handle_drag (center p : ℝ × ℝ) (cp : SlopeState) :
    (updateSlopeHandles center p cp).slopeAngle =
      qAtan2 (p.2 - center.2) (p.1 - center.1) ∧
    (updateSlopeHandles center p cp).weight =
      max 0.1 (Real.sqrt ((p.1 - center.1) * (p.1 - center.1) +
        (p.2 - center.2) * (p.2 - center.2)) / handleRadius) ∧
    (0.1 : ℝ) ≤ (updateSlopeHandles center p cp).weight ∧
    (p = center → (updateSlopeHandles center p cp).weight = 0.1) ∧
    (∀ B : ℝ, ∃ q : ℝ × ℝ, B < (updateSlopeHandles center q cp).weight) := by
  refine ⟨rfl, rfl, le_max_left _ _, ?_, ?_⟩
  · intro hpc
    subst hpc
    rw [updateSlopeHandles_weight]
    rw [show (p.1 - p.1) * (p.1 - p.1) + (p.2 - p.2) * (p.2 - p.2) = (0 : ℝ) from by ring]
    rw [Real.sqrt_zero, zero_div]
    exact max_eq_left (by norm_num)
  · intro B
    refine ⟨(center.1 + handleRadius * (max B 0 + 1), center.2), ?_⟩
    have hBpos : (0 : ℝ) < max B 0 + 1 := by
      have h := le_max_right B 0
      linarith
    rw [updateSlopeHandles_weight]
    have hdx : ((center.1 + handleRadius * (max B 0 + 1), center.2) : ℝ × ℝ).1 - center.1 =
        handleRadius * (max B 0 + 1) := by
      simp
    have hdy : ((center.1 + handleRadius * (max B 0 + 1), center.2) : ℝ × ℝ).2 - center.2 =
        (0 : ℝ) := by
      simp
    rw [hdx, hdy]
    rw [show handleRadius * (max B 0 + 1) * (handleRadius * (max B 0 + 1)) + 0 * 0 =
        (handleRadius * (max B 0 + 1)) * (handleRadius * (max B 0 + 1)) from by ring]
    have hnn : (0 : ℝ) ≤ handleRadius * (max B 0 + 1) := by
      unfold handleRadius
      nlinarith [le_max_right B 0]
    rw [Real.sqrt_mul_self hnn]
    rw [show handleRadius * (max B 0 + 1) / handleRadius = max B 0 + 1 from by
      unfold handleRadius
      field_simp]
    have hB : B < max B 0 + 1 := by
      have h := le_max_left B 0
      linarith
    exact lt_of_lt_of_le hB (le_max_right _ _)

/-- C7 witness: pointer exactly at the point's centre yields weight `0.1`. -/
theorem claim_C7_handle_drag_witness :
    (updateSlopeHandles ((0 : ℝ), (0 : ℝ)) ((0 : ℝ), (0 : ℝ)) ⟨0, 1⟩).weight = 0.1 :=
  (claim_C7_handle_drag ((0 : ℝ), (0 : ℝ)) ((0 : ℝ), (0 : ℝ)) ⟨0, 1⟩).2.2.2.1 rfl

/-- C8: in every state reachable by point creation, handle drags, the weight
increment/decrement keys, deletion and clearing, every stored weight is at
least `0.1` and hence strictly positive. -/
theorem claim_C8_weight_invariant (s : List ℝ) (h : WeightsReach s) :
    ∀ w ∈ s, (0.1 : ℝ) ≤ w ∧ 0 < w := by
  intro w hw
  have h1 := weightsReach_invariant s h w hw
  exact ⟨h1, lt_of_lt_of_le (by norm_num) h1⟩

/-- C8 witness: the state after creating one control point. -/
theorem claim_C8_weight_invariant_witness : (0.1 : ℝ) ≤ 1 ∧ (0 : ℝ) < 1 :=
  claim_C8_weight_invariant [1] (WeightsReach.create [] WeightsReach.start) 1 (by simp)

/-- C9: NURBS evaluation returns the zero sentinel both for fewer than two
control points and for a zero weighted-basis denominator at an interior
parameter, and Hermite sampling with fewer than two points returns the empty
sample; all three return normally. -/
theorem claim_C9_degenerate_inputs :
    (∀ (cps : List ControlPoint) (deg : ℕ) (t : ℚ), cps.length < 2 →
      evaluateNURBS cps deg t = ⟨0, 0⟩) ∧
    (∀ (cps : List ControlPoint) (deg : ℕ) (t : ℚ), 0 < t → t < 1 →
      nurbsDenom cps deg t = 0 → evaluateNURBS cps deg t = ⟨0, 0⟩) ∧
    (∀ (pts : List InterpPoint) (res : ℕ), pts.length < 2 → sampleHermite pts res = []) := by
  refine ⟨?_, ?_, ?_⟩
  · intro cps deg t hlen
    unfold evaluateNURBS
    rw [if_pos hlen]
  · intro cps deg t h0 h1 hden
    unfold evaluateNURBS
    by_cases hlen : cps.length < 2
    · rw [if_pos hlen]
    · rw [if_neg hlen, if_neg (by linarith), if_neg (by linarith),
        if_neg (fun hh => hh hden)]
  · intro pts res hlen
    unfold sampleHermite
    rw [if_pos hlen]

/-- C9 witness: the empty configuration, a two-point configuration whose
weights are both zero (zero denominator at `t = 1/2`), and the empty Hermite
point list. -/
theorem claim_C9_degenerate_inputs_witness :
    evaluateNURBS [] 3 (1 / 2) = ⟨0, 0⟩ ∧
    evaluateNURBS [⟨⟨1, 1⟩, 0⟩, ⟨⟨2, 2⟩, 0⟩] 1 (1 / 2) = ⟨0, 0⟩ ∧
    sampleHermite [] 7 = [] := by
  refine ⟨claim_C9_degenerate_inputs.1 [] 3 (1 / 2) (by norm_num), ?_,
    claim_C9_degenerate_inputs.2.2 [] 7 (by norm_num)⟩
  apply claim_C9_degenerate_inputs.2.1 [⟨⟨1, 1⟩, 0⟩, ⟨⟨2, 2⟩, 0⟩] 1 (1 / 2)
    (by norm_num) (by norm_num)
  unfold nurbsDenom
  rw [Finset.sum_eq_zero]
  intro i hi
  rw [Finset.mem_range] at hi
  match i, hi with
  | 0, _ => simp
  | 1, _ => simp

/-- C10: for every degree the caller sets (including degrees at or above the
point count, which the code never rejects), `generateKnots` still returns
`pointCount + degree + 1` non-decreasing entries, the trailing `1.0`
assignments cover their whole range (overwriting any overlap with the leading
`0.0` range), the interior loop only runs when its divisor
`n - degree + 1` is positive, and the maximal knot index
`i + degree + 1` read by `basisFunction` for `i ≤ pointCount - 1` is within
bounds. -/
theorem claim_C10_oversized_degree (pc d : ℕ) (_hd : 1 ≤ d) :
    (generateKnots pc d).length = pc + d + 1 ∧
    (∀ a b : ℕ, a ≤ b → b < pc + d + 1 →
      (generateKnots pc d).getD a 0 ≤ (generateKnots pc d).getD b 0) ∧
    (∀ j : ℕ, pc ≤ j → j ≤ pc + d → (generateKnots pc d).getD j 0 = 1) ∧
    (knotLoopInterior pc d ≠ [] → 0 < ((pc : ℤ) - 1) - (d : ℤ) + 1) ∧
    (∀ i : ℕ, i + 1 ≤ pc → i + d + 1 < (generateKnots pc d).length) := by
  refine ⟨generateKnots_length pc d, ?_, ?_, ?_, ?_⟩
  · exact fun a b hab hb => generateKnots_sorted pc d a b hab hb
  · exact fun j h1 h2 => generateKnots_one pc d j h1 h2
  · intro hne
    have hlen : (knotLoopInterior pc d).length = pc - 1 - d := by
      simp [knotLoopInterior]
    have hpos : 0 < pc - 1 - d := by
      rcases Nat.eq_zero_or_pos (pc - 1 - d) with h | h
      · rw [← hlen] at h
        exact absurd (List.eq_nil_of_length_eq_zero h) hne
      · exact h
    omega
  · intro i hi
    rw [generateKnots_length]
    omega

/-- C10 witness: `pointCount = 2` with oversized `degree = 5`; the length is
still `2 + 5 + 1` and index 3 — written 0 by the leading loop, then 1 by the
trailing loop — reads 1. -/
theorem claim_C10_oversized_degree_witness :
    (generateKnots 2 5).length = 2 + 5 + 1 ∧ (generateKnots 2 5).getD 3 0 = 1 :=
  ⟨(claim_C10_oversized_degree 2 5 (by norm_num)).1,
    (claim_C10_oversized_degree 2 5 (by norm_num)).2.2.1 3 (by norm_num) (by norm_num)⟩

